import Mathlib

/-!
Shallow embedding of the serial-perf counting core: the non-zero-byte
counter algebra (counter.rs), CRC-8/AUTOSAR packet framing, the RX and TX
state machines (rx_state.rs, tx_state.rs), the non-blocking orchestrator
composition (nb.rs), the polling byte-rate limiter (polling.rs) and the
byte-rate value conversions (rate.rs).  Machine integers (u8/u16/u32/u64,
usize) are modelled as Nat; where the Rust code can overflow or panic the
embedding makes that explicit (Option results, checked arithmetic against
the usize bound).
-/

namespace SerialPerf

/-- usize::MAX on the 64-bit targets the crate supports. -/
def USIZE_MAX : Nat := 2 ^ 64 - 1

/-- usize::saturating_add. -/
def satAdd (a b : Nat) : Nat := min (a + b) USIZE_MAX

/-! ## Counter byte representation (counter.rs)

A counter of width `N` is a `uN` value, modelled as a `Nat` below `256 ^ N`.
`to_le_bytes N n` is the little-endian byte list of `n` (the Rust
`<uN>::to_le_bytes`), `from_le_bytes` its inverse. -/

/-- Little-endian bytes of `n`, width `N` (Rust `to_le_bytes`). -/
def to_le_bytes : Nat → Nat → List Nat
  | 0, _ => []
  | n + 1, v => (v % 256) :: to_le_bytes n (v / 256)

/-- Rebuild the integer from little-endian bytes (Rust `from_le_bytes`). -/
def from_le_bytes : List Nat → Nat
  | [] => 0
  | b :: bs => b + 256 * from_le_bytes bs

/-- The all-ones byte pattern `LeBytes::ones`, i.e. the minimal counter. -/
def ones (n : Nat) : List Nat := List.replicate n 1

/-- The all-0xFF byte pattern `LeBytes::filled`, i.e. the maximal counter. -/
def filled (n : Nat) : List Nat := List.replicate n 255

/-- Body of the `normalize` loop over the byte list: `none` at the first
zero byte, else the sum of `(byte_i - 1) * 255 ^ i`. -/
def normalizeBytes : List Nat → Option Nat
  | [] => some 0
  | b :: bs => if b < 1 then none else (normalizeBytes bs).map fun k => (b - 1) + 255 * k

/-- `Counter::normalize` for a width-`N` counter value `v`. -/
def normalize (n v : Nat) : Option Nat := normalizeBytes (to_le_bytes n v)

/-- `Counter::min_counter`: `from_le_bytes(ones)`. -/
def min_counter (n : Nat) : Nat := from_le_bytes (ones n)

/-- `Counter::max_counter`: `from_le_bytes(filled)`. -/
def max_counter (n : Nat) : Nat := from_le_bytes (filled n)

/-- `Counter::max_normalized`: `max_counter().normalize().unwrap()`.
The `unwrap` is modelled with `getD 0`; `max_normalized_eq` shows the
option is in fact `some (255 ^ n - 1)`. -/
def max_normalized (n : Nat) : Nat := (normalize n (max_counter n)).getD 0

/-- Byte list built by the `to_counter_value` loop: digit `k % 255 + 1`
then recurse on `k / 255`. -/
def denormBytes : Nat → Nat → List Nat
  | 0, _ => []
  | n + 1, k => (k % 255 + 1) :: denormBytes n (k / 255)

/-- `Counter::to_counter_value`: inverse of `normalize`; `none` above
`max_normalized`.  The shift-accumulate loop of the source is the
`from_le_bytes` of the digit list. -/
def to_counter_value (n k : Nat) : Option Nat :=
  if max_normalized n < k then none else some (from_le_bytes (denormBytes n k))

/-- `Counter::distance`.  The source `expect`s both operands to normalize;
that panic is modelled as `none`. -/
def distance (n a b : Nat) : Option Nat :=
  match normalize n a, normalize n b with
  | some ka, some kb =>
      if ka ≤ kb then some (kb - ka)
      else some ((max_normalized n - ka) + (kb + 1))
  | _, _ => none

/-- `Counter::pop`: returns `(previous value, incremented state)`.  An
invalid current value is first reset to `min_counter`; the two
`unwrap_unchecked`s are modelled with `getD` (their safety is proved by
the normalization lemmas below). -/
def pop (n v : Nat) : Nat × Nat :=
  let v0 := if (normalize n v).isNone then min_counter n else v
  let k := (normalize n v0).getD 0
  let k2 := if k = max_normalized n then 0 else k + 1
  (v0, (to_counter_value n k2).getD 0)

/-- The counter that `pop` leaves behind: the successor of `v`. -/
def nextCounter (n v : Nat) : Nat := (pop n v).2

/-- A value is a valid width-`n` counter when it fits in `n` bytes and
every byte is non-zero (i.e. `normalize` succeeds). -/
def IsCounter (n v : Nat) : Prop := v < 256 ^ n ∧ (normalize n v).isSome

instance (n v : Nat) : Decidable (IsCounter n v) :=
  inferInstanceAs (Decidable (v < 256 ^ n ∧ (normalize n v).isSome))

/-! ## CRC-8/AUTOSAR (`crc` crate parameters: poly 0x2F, init 0xFF,
refin/refout false, xorout 0xFF) -/

/-- One CRC bit step iterated `k` times: shift left, conditionally xor
the polynomial 0x2F, truncated to 8 bits. -/
def crc8bits : Nat → Nat → Nat
  | c, 0 => c
  | c, k + 1 => crc8bits (if 128 ≤ c then ((c * 2) ^^^ 0x2F) % 256 else (c * 2) % 256) k

/-- CRC-8/AUTOSAR over a byte list. -/
def crc8_autosar (bytes : List Nat) : Nat :=
  (bytes.foldl (fun c b => crc8bits ((c ^^^ b) % 256) 8) 0xFF) ^^^ 0xFF

/-! ## Packet framing (counter.rs `LeBytes`) -/

/-- `LeBytes::into_packet`: the repeated `insert(0, byte)` builds the
reverse of the byte list; the sentinel `0` and then the checksum are
inserted at the front.  With checksum disabled the CRC field is the first
counter byte (`0` for an empty width). -/
def into_packet (bytes : List Nat) (checksum_enabled : Bool) : List Nat :=
  let out := bytes.foldl (fun acc b => b :: acc) []
  let checksum := if checksum_enabled then crc8_autosar bytes else bytes.headD 0
  checksum :: 0 :: out

/-- `LeBytes::from_slice_checked`: `none` on a length mismatch or (when a
checksum is supplied) a CRC mismatch, else the bytes themselves. -/
def from_slice_checked (n : Nat) (slice : List Nat) (checksum : Option Nat) :
    Option (List Nat) :=
  if slice.length ≠ n then none
  else
    match checksum with
    | some c => if crc8_autosar slice = c then some slice else none
    | none => some slice

/-- Bytes of a packet in wire order (the TX machine emits the heapless
`Vec` back-to-front, see `take` below): counter bytes little-endian, the
sentinel, then the CRC field. -/
def packetWire (n v : Nat) (checksum_enabled : Bool) : List Nat :=
  (into_packet (to_le_bytes n v) checksum_enabled).reverse

/-! ## TX state machine (tx_state.rs)

The heapless `Vec<u8, MAX_PACKET_SIZE>` is a `List Nat` with the same
index order; `peek` reads its last element, `take` pops it. -/

structure TxState where
  number_to_send : Nat
  data_to_send : List Nat
  checksum_enabled : Bool
deriving Repr, DecidableEq

/-- `Default for TxState` / `new_without_checksum`: counter starts at the
number type's `Default` (zero), the queue empty. -/
def TxState.init (checksum_enabled : Bool) : TxState :=
  { number_to_send := 0, data_to_send := [], checksum_enabled := checksum_enabled }

/-- `TxState::prepare_next_packet`: advance the counter with `pop` and
encode the popped value. -/
def prepare_next_packet (n : Nat) (s : TxState) : TxState :=
  let r := pop n s.number_to_send
  { s with
    number_to_send := r.2
    data_to_send := into_packet (to_le_bytes n r.1) s.checksum_enabled }

/-- `TxState::peek`: lazily materialize the next packet, then read the
`Vec`'s last byte (`unwrap_or(0)`). -/
def peekTx (n : Nat) (s : TxState) : Nat × TxState :=
  let s1 := if s.data_to_send.isEmpty then prepare_next_packet n s else s
  (s1.data_to_send.getLast?.getD 0, s1)

/-- `TxState::take`: `peek` then drop the `Vec`'s last byte. -/
def takeTx (n : Nat) (s : TxState) : Nat × TxState :=
  let r := peekTx n s
  (r.1, { r.2 with data_to_send := r.2.data_to_send.dropLast })

/-- Successive `take` calls: the list of emitted bytes and the final
state. -/
def takeSeq (n : Nat) : Nat → TxState → List Nat × TxState
  | 0, s => ([], s)
  | k + 1, s =>
      let r := takeTx n s
      let rest := takeSeq n k r.2
      (r.1 :: rest.1, rest.2)

/-! ## RX state machine (rx_state.rs)

Loss statistics are the `CountingStatistics` saturating counters inlined.
`on_byte_received` returns `none` where the Rust code panics: on the
`expect` inside `distance`, or on the `usize` underflow of
`distance - 1` in `on_new_number` when the distance is zero. -/

/-- Capacity of the packet buffers (counting/mod.rs). -/
def MAX_PACKET_SIZE : Nat := 10

structure RxState where
  number : Option Nat
  current_packet : List Nat
  waiting_for_crc : Bool
  checksum_enabled : Bool
  loss_successful : Nat
  loss_failed : Nat
deriving Repr, DecidableEq

/-- `RxState::new` / `new_without_checksum`. -/
def RxState.init (checksum_enabled : Bool) : RxState :=
  { number := none, current_packet := [], waiting_for_crc := false,
    checksum_enabled := checksum_enabled, loss_successful := 0, loss_failed := 0 }

/-- `RxState::on_new_number`: first packet just records the number; later
packets add `distance - 1` to the failed count.  `none` models the panic
paths (invalid operand in `distance`, or `distance = 0` underflowing the
`usize` subtraction). -/
def on_new_number (n : Nat) (s : RxState) (new_number : Nat) : Option RxState :=
  match s.number with
  | some old =>
      match distance n old new_number with
      | none => none
      | some d =>
          if d = 0 then none
          else some { s with
            loss_failed := satAdd s.loss_failed (d - 1)
            number := some new_number
            loss_successful := satAdd s.loss_successful 1 }
  | none =>
      some { s with number := some new_number, loss_successful := satAdd s.loss_successful 1 }

/-- `RxState::parse_current_packet`: decode the buffer (the checksum
argument is `Some crc` exactly when checksum mode is enabled); on success
process the number; always clear the buffer. -/
def parse_current_packet (n : Nat) (s : RxState) (crc : Nat) : Option RxState :=
  match from_slice_checked n s.current_packet
      (if s.checksum_enabled then some crc else none) with
  | some bytes =>
      (on_new_number n s (from_le_bytes bytes)).map fun s2 =>
        { s2 with current_packet := [] }
  | none => some { s with current_packet := [] }

/-- `RxState::on_byte_received_normal`: the sentinel switches to the CRC
phase; otherwise a full buffer (capacity `MAX_PACKET_SIZE`) is first
cleared (so the push lands in a buffer holding only the new byte), then
the byte is appended. -/
def on_byte_received_normal (s : RxState) (b : Nat) : RxState :=
  if b = 0 then { s with waiting_for_crc := true }
  else if s.current_packet.length = MAX_PACKET_SIZE then
    { s with current_packet := [b] }
  else
    { s with current_packet := s.current_packet ++ [b] }

/-- `RxState::on_byte_received_crc`: parse with the received CRC byte,
then return to the receiving phase. -/
def on_byte_received_crc (n : Nat) (s : RxState) (b : Nat) : Option RxState :=
  (parse_current_packet n s b).map fun s2 => { s2 with waiting_for_crc := false }

/-- `RxState::on_byte_received`. -/
def on_byte_received (n : Nat) (s : RxState) (b : Nat) : Option RxState :=
  if s.waiting_for_crc then on_byte_received_crc n s b
  else some (on_byte_received_normal s b)

/-- Feed a whole byte list to the RX machine. -/
def runRx (n : Nat) (s : RxState) : List Nat → Option RxState
  | [] => some s
  | b :: bs => (on_byte_received n s b).bind fun s2 => runRx n s2 bs

/-- The chain `c, next c, next (next c), …` of length `k`. -/
def chainCounters (n v : Nat) : Nat → List Nat
  | 0 => []
  | k + 1 => v :: chainCounters n (nextCounter n v) k

/-- Byte-for-byte concatenation of the checksum-enabled packets of a
chain, in wire order. -/
def chainBytes (n v k : Nat) : List Nat :=
  (chainCounters n v k).flatMap fun c => packetWire n c true

/-! ## Non-blocking orchestrator composition (nb.rs `loop_nb`)

The result of `recv_nb`/`send_nb` is `Ok`, `Err(WouldBlock)` or a real
error; `loop_nb` combines the two results with the source's `match`, in
the source's arm order. -/

inductive NbResult (E : Type) where
  | ok : NbResult E
  | wouldBlock : NbResult E
  | err : E → NbResult E
deriving Repr, DecidableEq

/-- The `match` in `ValidCountingNb::loop_nb`, arm for arm: (Ok, Ok);
(WouldBlock, WouldBlock); one side WouldBlock; one side a real error. -/
def loop_nb_combine {E : Type} : NbResult E → NbResult E → NbResult E
  | .ok, .ok => .ok
  | .wouldBlock, .wouldBlock => .wouldBlock
  | .wouldBlock, _ => .ok
  | _, .wouldBlock => .ok
  | .err e, _ => .err e
  | _, .err e => .err e

/-! ## Polling byte-rate limiter (byte_rate/limit/polling.rs)

Instants are nanosecond `Nat`s; the `embedded_timers` timer (an external
collaborator, consumed through the spec's clock contract) stores its
start instant and duration, and is expired once the elapsed time reaches
the duration.  `Instant::checked_add` cannot overflow on unbounded `Nat`
instants, so the `TimerError::Overflow` path is dead in the model; the
remaining panic (`is_expired` on a never-started timer, `expect`ed in
`timer_expired`) and recursion of `send` are made explicit with `Option`
and fuel: `none` means the call panicked or did not terminate within the
fuel. -/

inductive LimState where
  | idle : LimState
  | running : Nat → LimState
  | limiting : LimState
  | unlimited : LimState
deriving Repr, DecidableEq

structure Limiter where
  maxBytes : Nat
  maxIntervalNs : Nat
  st : LimState
  timerStarted : Bool
  timerStart : Nat
  timerDur : Nat
  timerEndTime : Nat
deriving Repr, DecidableEq

/-- `PollingByteRateLimiter::new` / `set_byte_rate`: pick the initial
state from the configured rate; the timer is fresh (never started) and
`timer_end_time` is the current instant. -/
def newLimiter (bytes intervalNs now : Nat) : Limiter :=
  { maxBytes := bytes
    maxIntervalNs := intervalNs
    st := if intervalNs = 0 then .unlimited else if bytes = 0 then .limiting else .idle
    timerStarted := false
    timerStart := 0
    timerDur := 0
    timerEndTime := now }

/-- `Timer::is_expired` as consumed through `timer_expired`: `none` when
the timer was never started (the `expect` panic). -/
def timerExpired (now : Nat) (L : Limiter) : Option Bool :=
  if L.timerStarted then some (decide (L.timerStart + L.timerDur ≤ now)) else none

/-- `PollingByteRateLimiter::can_send`, guard for guard. -/
def canSend (now : Nat) (L : Limiter) : Option Bool :=
  match L.st with
  | .idle => some true
  | .unlimited => some true
  | .running r => if 0 < r then some true else timerExpired now L
  | .limiting => if L.maxBytes = 0 then some false else timerExpired now L

/-- The `while timer_end_time < now` loop of `fit_timer_duration`,
advancing the deadline by whole intervals; fuel bounds the iterations
(`none` = did not exit within the fuel, as with a zero interval). -/
def fitLoop : Nat → Nat → Nat → Nat → Option Nat
  | 0, _, _, _ => none
  | fuel + 1, dur, now, e => if e < now then fitLoop fuel dur now (e + dur) else some e

/-- `PollingByteRateLimiter::restart`: fit the deadline, start the timer
for the remaining duration, and enter `Running(max_rate.bytes)`. -/
def restartL (fuel now : Nat) (L : Limiter) : Option Limiter :=
  match fitLoop fuel L.maxIntervalNs now L.timerEndTime with
  | none => none
  | some e => some { L with
      timerEndTime := e
      timerStarted := true
      timerStart := now
      timerDur := e - now
      st := .running L.maxBytes }

/-- `PollingByteRateLimiter::send`.  `send_idle` starts the window timer
and falls into the `send_running` logic with the full budget;
`send_running` and `send_limiting` restart and retry when the timer has
expired.  All `clock.now()` reads within one call see the same instant
`now`. -/
def sendL : Nat → Nat → Limiter → Option (Bool × Limiter)
  | 0, _, _ => none
  | fuel + 1, now, L =>
    match L.st with
    | .unlimited => some (true, L)
    | .idle =>
        let L1 := { L with
          timerStarted := true, timerStart := now, timerDur := L.maxIntervalNs,
          timerEndTime := now + L.maxIntervalNs }
        match timerExpired now L1 with
        | none => none
        | some true =>
            match restartL fuel now L1 with
            | none => none
            | some L2 => sendL fuel now L2
        | some false =>
            if 1 < L.maxBytes then some (true, { L1 with st := .running (L.maxBytes - 1) })
            else some (false, { L1 with st := .limiting })
    | .running r =>
        match timerExpired now L with
        | none => none
        | some true =>
            match restartL fuel now L with
            | none => none
            | some L2 => sendL fuel now L2
        | some false =>
            if 1 < r then some (true, { L with st := .running (r - 1) })
            else some (false, { L with st := .limiting })
    | .limiting =>
        if L.maxBytes = 0 then some (false, L)
        else
          match timerExpired now L with
          | none => none
          | some true =>
              match restartL fuel now L with
              | none => none
              | some L2 => sendL fuel now L2
          | some false => some (false, L)

/-- Run `k` successive `send` calls at one instant, collecting results. -/
def runSends (fuel now : Nat) : Nat → Limiter → Option (List Bool × Limiter)
  | 0, L => some ([], L)
  | k + 1, L =>
      match sendL fuel now L with
      | none => none
      | some (b, L2) =>
          match runSends fuel now k L2 with
          | none => none
          | some (bs, L3) => some (b :: bs, L3)

/-! ## Byte-rate value (byte_rate/rate.rs)

`core::time::Duration` is `(secs : u64, nanos < 10^9)`; `usize` is 64-bit.
`usize::try_from` of the `u128` subsecond counts and `checked_mul` are
modelled against `USIZE_MAX`. -/

structure Dur where
  secs : Nat
  nanos : Nat
deriving Repr, DecidableEq

def Dur.isZero (d : Dur) : Bool := d.secs == 0 && d.nanos == 0

def Dur.asNanos (d : Dur) : Nat := d.secs * 1000000000 + d.nanos

def Dur.asMicros (d : Dur) : Nat := d.secs * 1000000 + d.nanos / 1000

def Dur.asMillis (d : Dur) : Nat := d.secs * 1000 + d.nanos / 1000000

def Dur.asSecs (d : Dur) : Nat := d.secs

/-- `usize::try_from` on a wider value. -/
def tryFromUsize (v : Nat) : Option Nat := if v ≤ USIZE_MAX then some v else none

/-- `usize::checked_mul`. -/
def checkedMul (a b : Nat) : Option Nat := if a * b ≤ USIZE_MAX then some (a * b) else none

structure ByteRate where
  bytes : Nat
  interval : Dur
deriving Repr, DecidableEq

/-- `ByteRate::bytes_per_second_ns_accuracy`. -/
def bytes_per_second_ns_accuracy (r : ByteRate) : Option Nat :=
  if r.interval.isZero then none
  else
    (tryFromUsize r.interval.asNanos).bind fun ns =>
      (checkedMul r.bytes 1000000000).map fun bytes_ns => bytes_ns / ns

/-- `ByteRate::bytes_per_second_us_accuracy`. -/
def bytes_per_second_us_accuracy (r : ByteRate) : Option Nat :=
  if r.interval.isZero then none
  else
    (tryFromUsize r.interval.asMicros).bind fun us =>
      if us = 0 then none
      else (checkedMul r.bytes 1000000).map fun bytes_us => bytes_us / us

/-- `ByteRate::bytes_per_second_ms_accuracy`. -/
def bytes_per_second_ms_accuracy (r : ByteRate) : Option Nat :=
  if r.interval.isZero then none
  else
    (tryFromUsize r.interval.asMillis).bind fun ms =>
      if ms = 0 then none
      else (checkedMul r.bytes 1000).map fun bytes_ms => bytes_ms / ms

/-- `ByteRate::bytes_per_second_sec_accuracy`. -/
def bytes_per_second_sec_accuracy (r : ByteRate) : Option Nat :=
  if r.interval.isZero then none
  else
    (tryFromUsize r.interval.asSecs).bind fun sec =>
      if sec = 0 then none else some (r.bytes / sec)

/-- `ByteRate::bytes_per_second`: the if-let cascade over the four
precisions. -/
def bytes_per_second (r : ByteRate) : Option Nat :=
  if r.interval.isZero then none
  else
    match bytes_per_second_ns_accuracy r with
    | some result_ns => some result_ns
    | none =>
        match bytes_per_second_us_accuracy r with
        | some result_us => some result_us
        | none =>
            match bytes_per_second_ms_accuracy r with
            | some result_ms => some result_ms
            | none => bytes_per_second_sec_accuracy r

/-! ## Concrete states used by the scenario theorems -/

/-- The limiter after eleven `send` calls at instant 0 from a fresh
`(B = 10, I = 1 s)` limiter: budget exhausted, window deadline at 1 s. -/
def scenarioLimiter : Limiter :=
  { maxBytes := 10, maxIntervalNs := 1000000000, st := .limiting,
    timerStarted := true, timerStart := 0, timerDur := 1000000000,
    timerEndTime := 1000000000 }

/-- A `(B = 0, I = 1 s)` limiter brought into `Limiting` with a started
timer: `restart` at instant 5 puts it in `Running 0`, and the next `send`
moves it to `Limiting` keeping the started timer. -/
def limitingAfterRestart : Limiter :=
  { maxBytes := 0, maxIntervalNs := 1000000000, st := .running 0,
    timerStarted := true, timerStart := 5, timerDur := 999999995,
    timerEndTime := 1000000000 }

/-- The `Limiting` state reached from `limitingAfterRestart` by one
`send`; its window timer is long expired by instant `2 * 10 ^ 9`. -/
def limitingStuck : Limiter :=
  { maxBytes := 0, maxIntervalNs := 1000000000, st := .limiting,
    timerStarted := true, timerStart := 5, timerDur := 999999995,
    timerEndTime := 1000000000 }

/-- An RX state whose buffer is at full capacity (ten bytes). -/
def rxFull10 : RxState :=
  { number := none, current_packet := [1, 1, 1, 1, 1, 1, 1, 1, 1, 1],
    waiting_for_crc := false, checksum_enabled := true,
    loss_successful := 0, loss_failed := 0 }

/-- The RX state after feeding three non-zero bytes to a fresh width-2
machine: the buffer holds all three. -/
def rxAfter3 : RxState :=
  { number := none, current_packet := [1, 1, 1],
    waiting_for_crc := false, checksum_enabled := true,
    loss_successful := 0, loss_failed := 0 }

/-! ## Lemmas: little-endian bytes -/

theorem to_le_bytes_length (n v : Nat) : (to_le_bytes n v).length = n := by
  induction n generalizing v with
  | zero => rfl
  | succ m ih => simp [to_le_bytes, ih]

theorem to_le_bytes_lt (n v : Nat) : ∀ b ∈ to_le_bytes n v, b < 256 := by
  induction n generalizing v with
  | zero => simp [to_le_bytes]
  | succ m ih =>
      intro b hb
      simp only [to_le_bytes, List.mem_cons] at hb
      rcases hb with h | h
      · subst h; exact Nat.mod_lt _ (by omega)
      · exact ih _ _ h

theorem from_to_le_bytes (n v : Nat) : from_le_bytes (to_le_bytes n v) = v % 256 ^ n := by
  induction n generalizing v with
  | zero => simp [to_le_bytes, from_le_bytes, Nat.mod_one]
  | succ m ih =>
      simp only [to_le_bytes, from_le_bytes, ih, pow_succ']
      rw [Nat.mod_mul]

theorem from_le_bytes_eq_self {n v : Nat} (h : v < 256 ^ n) :
    from_le_bytes (to_le_bytes n v) = v := by
  rw [from_to_le_bytes, Nat.mod_eq_of_lt h]

theorem to_from_le_bytes (bs : List Nat) (h : ∀ b ∈ bs, b < 256) :
    to_le_bytes bs.length (from_le_bytes bs) = bs := by
  induction bs with
  | nil => rfl
  | cons b bs ih =>
      have hb : b < 256 := h b (List.mem_cons_self b bs)
      have hbs : ∀ x ∈ bs, x < 256 := fun x hx => h x (List.mem_cons_of_mem b hx)
      simp only [List.length_cons, to_le_bytes, from_le_bytes]
      have hmod : (b + 256 * from_le_bytes bs) % 256 = b := by omega
      have hdiv : (b + 256 * from_le_bytes bs) / 256 = from_le_bytes bs := by omega
      rw [hmod, hdiv, ih hbs]

theorem from_le_bytes_lt (bs : List Nat) (h : ∀ b ∈ bs, b < 256) :
    from_le_bytes bs < 256 ^ bs.length := by
  induction bs with
  | nil => simp [from_le_bytes]
  | cons b bs ih =>
      have hb : b < 256 := h b (List.mem_cons_self b bs)
      have hbs := ih fun x hx => h x (List.mem_cons_of_mem b hx)
      simp only [from_le_bytes, List.length_cons, pow_succ']
      omega

/-! ## Lemmas: normalization bijection -/

theorem normalizeBytes_isSome {bs : List Nat} :
    (normalizeBytes bs).isSome ↔ ∀ b ∈ bs, 1 ≤ b := by
  induction bs with
  | nil => simp [normalizeBytes]
  | cons b bs ih =>
      by_cases hb : b < 1
      · simp only [normalizeBytes, hb, if_true, Option.isSome_none,
          Bool.false_eq_true, false_iff]
        intro h
        have := h b (List.mem_cons_self b bs)
        omega
      · simp only [normalizeBytes, hb, if_false, Option.isSome_map', ih,
          List.forall_mem_cons]
        constructor
        · intro h
          exact ⟨by omega, h⟩
        · intro h
          exact h.2

theorem normalizeBytes_lt {bs : List Nat} {k : Nat} (h256 : ∀ b ∈ bs, b < 256)
    (h : normalizeBytes bs = some k) : k < 255 ^ bs.length := by
  induction bs generalizing k with
  | nil =>
      simp only [normalizeBytes, Option.some.injEq] at h
      subst h
      simp
  | cons b bs ih =>
      simp only [normalizeBytes] at h
      by_cases hb : b < 1
      · simp [hb] at h
      · simp only [hb, if_false, Option.map_eq_some'] at h
        obtain ⟨k2, hk2, rfl⟩ := h
        have hk2lt := ih (fun x hx => h256 x (List.mem_cons_of_mem b hx)) hk2
        have hblt : b < 256 := h256 b (List.mem_cons_self b bs)
        simp only [List.length_cons, pow_succ']
        omega

theorem normalizeBytes_replicate_one (n : Nat) :
    normalizeBytes (List.replicate n 1) = some 0 := by
  induction n with
  | zero => rfl
  | succ m ih => simp [List.replicate_succ, normalizeBytes, ih]

theorem normalizeBytes_replicate_255 (n : Nat) :
    normalizeBytes (List.replicate n 255) = some (255 ^ n - 1) := by
  induction n with
  | zero => rfl
  | succ m ih =>
      simp only [List.replicate_succ, normalizeBytes, ih]
      have h1 : (1 : Nat) ≤ 255 ^ m := Nat.one_le_pow _ _ (by omega)
      simp only [show ¬(255 : Nat) < 1 by omega, if_false, Option.map_some']
      have h2 : (255 : Nat) ^ (m + 1) = 255 * 255 ^ m := pow_succ' 255 m
      congr 1
      omega

theorem normalize_from_le_bytes (bs : List Nat) (h : ∀ b ∈ bs, b < 256) :
    normalize bs.length (from_le_bytes bs) = normalizeBytes bs := by
  unfold normalize
  rw [to_from_le_bytes bs h]

theorem normalize_min (n : Nat) : normalize n (min_counter n) = some 0 := by
  have h := normalize_from_le_bytes (List.replicate n 1)
    (by intro b hb; simp [List.eq_of_mem_replicate hb])
  rw [List.length_replicate] at h
  unfold min_counter ones
  rw [h, normalizeBytes_replicate_one]

theorem normalize_max (n : Nat) : normalize n (max_counter n) = some (255 ^ n - 1) := by
  have h := normalize_from_le_bytes (List.replicate n 255)
    (by intro b hb; simp [List.eq_of_mem_replicate hb])
  rw [List.length_replicate] at h
  unfold max_counter filled
  rw [h, normalizeBytes_replicate_255]

theorem max_normalized_eq (n : Nat) : max_normalized n = 255 ^ n - 1 := by
  unfold max_normalized
  rw [normalize_max]
  rfl

theorem normalize_lt {n v k : Nat} (h : normalize n v = some k) : k < 255 ^ n := by
  have := normalizeBytes_lt (to_le_bytes_lt n v) h
  rwa [to_le_bytes_length] at this

theorem denormBytes_length (n k : Nat) : (denormBytes n k).length = n := by
  induction n generalizing k with
  | zero => rfl
  | succ m ih => simp [denormBytes, ih]

theorem denormBytes_bounds (n k : Nat) : ∀ b ∈ denormBytes n k, 1 ≤ b ∧ b < 256 := by
  induction n generalizing k with
  | zero => simp [denormBytes]
  | succ m ih =>
      intro b hb
      simp only [denormBytes, List.mem_cons] at hb
      rcases hb with h | h
      · have : k % 255 < 255 := Nat.mod_lt _ (by omega)
        omega
      · exact ih _ _ h

theorem normalizeBytes_denormBytes {n k : Nat} (h : k < 255 ^ n) :
    normalizeBytes (denormBytes n k) = some k := by
  induction n generalizing k with
  | zero =>
      have : k = 0 := by simpa using h
      simp [denormBytes, normalizeBytes, this]
  | succ m ih =>
      have hdiv : k / 255 < 255 ^ m := by
        rw [pow_succ'] at h
        exact Nat.div_lt_of_lt_mul h
      simp only [denormBytes, normalizeBytes, ih hdiv]
      have : ¬ k % 255 + 1 < 1 := by omega
      simp only [this, if_false, Option.map_some']
      congr 1
      have := Nat.mod_add_div k 255
      omega

theorem normalize_denorm {n k : Nat} (h : k < 255 ^ n) :
    normalize n (from_le_bytes (denormBytes n k)) = some k := by
  have h256 : ∀ b ∈ denormBytes n k, b < 256 := fun b hb => (denormBytes_bounds n k b hb).2
  have heq := normalize_from_le_bytes (denormBytes n k) h256
  rw [denormBytes_length] at heq
  rw [heq]
  exact normalizeBytes_denormBytes h

theorem denorm_lt {n k : Nat} : from_le_bytes (denormBytes n k) < 256 ^ n := by
  have := from_le_bytes_lt (denormBytes n k)
    (fun b hb => (denormBytes_bounds n k b hb).2)
  rwa [denormBytes_length] at this

theorem to_counter_value_eq {n k : Nat} (h : k < 255 ^ n) :
    to_counter_value n k = some (from_le_bytes (denormBytes n k)) := by
  unfold to_counter_value
  rw [max_normalized_eq]
  have : ¬ 255 ^ n - 1 < k := by omega
  simp [this]

/-! ## Lemmas: pop / successor -/

theorem pop_of_valid {n v k : Nat} (hk : normalize n v = some k) :
    pop n v = (v, from_le_bytes (denormBytes n (if k = 255 ^ n - 1 then 0 else k + 1))) := by
  have hklt := normalize_lt hk
  have h1 : (1 : Nat) ≤ 255 ^ n := Nat.one_le_pow _ _ (by omega)
  unfold pop
  simp only [hk, Option.isNone_some, Bool.false_eq_true, if_false, Option.getD_some,
    max_normalized_eq]
  by_cases hmax : k = 255 ^ n - 1
  · simp only [hmax, if_true]
    rw [to_counter_value_eq (by omega)]
    rfl
  · simp only [hmax, if_false]
    rw [to_counter_value_eq (by omega)]
    rfl

theorem nextCounter_of_valid {n v k : Nat} (hk : normalize n v = some k) :
    nextCounter n v = from_le_bytes (denormBytes n (if k = 255 ^ n - 1 then 0 else k + 1)) := by
  unfold nextCounter
  rw [pop_of_valid hk]

theorem normalize_nextCounter {n v k : Nat} (hk : normalize n v = some k) :
    normalize n (nextCounter n v) = some (if k = 255 ^ n - 1 then 0 else k + 1) := by
  have hklt := normalize_lt hk
  have h1 : (1 : Nat) ≤ 255 ^ n := Nat.one_le_pow _ _ (by omega)
  rw [nextCounter_of_valid hk]
  by_cases hmax : k = 255 ^ n - 1
  · simp only [hmax, if_true]
    exact normalize_denorm (by omega)
  · simp only [hmax, if_false]
    exact normalize_denorm (by omega)

theorem nextCounter_isCounter {n v : Nat} (h : IsCounter n v) :
    IsCounter n (nextCounter n v) := by
  obtain ⟨k, hk⟩ := Option.isSome_iff_exists.mp h.2
  constructor
  · rw [nextCounter_of_valid hk]
    exact denorm_lt
  · rw [normalize_nextCounter hk]
    rfl

/-! ## Lemmas: distance -/

theorem cast_pow_255 (n : Nat) : (((255 : Nat) ^ n : Nat) : ℤ) = (255 : ℤ) ^ n := by
  push_cast
  ring

theorem distance_eq_mod {n a b ka kb : Nat} (ha : normalize n a = some ka)
    (hb : normalize n b = some kb) :
    distance n a b = some ((((kb : ℤ) - (ka : ℤ)) % ((255 : ℤ) ^ n)).toNat) := by
  have hka := normalize_lt ha
  have hkb := normalize_lt hb
  have hcast := cast_pow_255 n
  unfold distance
  rw [ha, hb]
  by_cases hle : ka ≤ kb
  · have h0 : (0 : ℤ) ≤ (kb : ℤ) - ka := by omega
    have hlt : (kb : ℤ) - ka < (255 : ℤ) ^ n := by omega
    rw [Int.emod_eq_of_lt h0 hlt]
    simp only [hle, if_true]
    congr 1
    omega
  · have hmod : ((kb : ℤ) - ka) % ((255 : ℤ) ^ n)
        = ((kb : ℤ) - ka + (255 : ℤ) ^ n) % ((255 : ℤ) ^ n) :=
      (Int.add_emod_self).symm
    have h0 : (0 : ℤ) ≤ (kb : ℤ) - ka + (255 : ℤ) ^ n := by omega
    have hlt : (kb : ℤ) - ka + (255 : ℤ) ^ n < (255 : ℤ) ^ n := by omega
    rw [hmod, Int.emod_eq_of_lt h0 hlt]
    simp only [hle, if_false, max_normalized_eq]
    congr 1
    omega

theorem distance_next {n v k : Nat} (hn : 0 < n) (hk : normalize n v = some k) :
    distance n v (nextCounter n v) = some 1 := by
  have hklt := normalize_lt hk
  have h255 : (255 : Nat) ≤ 255 ^ n := by
    calc (255 : Nat) = 255 ^ 1 := (pow_one 255).symm
    _ ≤ 255 ^ n := Nat.pow_le_pow_right (by omega) hn
  unfold distance
  rw [hk, normalize_nextCounter hk]
  by_cases hmax : k = 255 ^ n - 1
  · simp only [hmax, if_true]
    have : ¬ (255 ^ n - 1 ≤ 0) := by omega
    simp only [this, if_false, max_normalized_eq, Option.some.injEq]
    omega
  · simp only [hmax, if_false]
    have : k ≤ k + 1 := by omega
    simp only [this, if_true, Option.some.injEq]
    omega

theorem distance_max_min {n : Nat} (hn : 0 < n) :
    distance n (max_counter n) (min_counter n) = some 1 := by
  have h255 : (255 : Nat) ≤ 255 ^ n := by
    calc (255 : Nat) = 255 ^ 1 := (pow_one 255).symm
    _ ≤ 255 ^ n := Nat.pow_le_pow_right (by omega) hn
  unfold distance
  rw [normalize_max, normalize_min]
  have : ¬ (255 ^ n - 1 ≤ 0) := by omega
  simp only [this, if_false, max_normalized_eq, Option.some.injEq]
  omega

/-! ## Claim theorems: counter algebra -/

/-- C2: for valid counters `a`, `b` of any width, `distance a b` is the
modular difference `(k(b) - k(a)) mod 255 ^ N` of the normalization
indices; in particular `distance c (next c) = 1` for every valid `c` and
`distance max min = 1`. -/
theorem claim_distance_is_modular_difference :
    (∀ n a b ka kb : Nat, normalize n a = some ka → normalize n b = some kb →
      distance n a b = some ((((kb : ℤ) - (ka : ℤ)) % ((255 : ℤ) ^ n)).toNat))
    ∧ (∀ n c : Nat, 0 < n → IsCounter n c → distance n c (nextCounter n c) = some 1)
    ∧ (∀ n : Nat, 0 < n → distance n (max_counter n) (min_counter n) = some 1) := by
  refine ⟨fun n a b ka kb ha hb => distance_eq_mod ha hb, fun n c hn hc => ?_,
    fun n hn => distance_max_min hn⟩
  obtain ⟨k, hk⟩ := Option.isSome_iff_exists.mp hc.2
  exact distance_next hn hk

/-- Witness for C2 at width 1: `distance 0x01 0x03 = 2 = (2 - 0) mod 255`,
`distance` to the successor of `0x01` is 1, and `distance max min = 1`. -/
theorem claim_distance_is_modular_difference_witness :
    distance 1 1 3 = some ((((2 : ℤ) - (0 : ℤ)) % ((255 : ℤ) ^ 1)).toNat)
    ∧ distance 1 1 (nextCounter 1 1) = some 1
    ∧ distance 1 (max_counter 1) (min_counter 1) = some 1 :=
  ⟨claim_distance_is_modular_difference.1 1 1 3 0 2 (by decide) (by decide),
   claim_distance_is_modular_difference.2.1 1 1 (by decide) (by decide),
   claim_distance_is_modular_difference.2.2 1 (by decide)⟩

/-! ## Lemmas: packet framing -/

theorem foldl_cons_eq (bs : List Nat) (acc : List Nat) :
    bs.foldl (fun a b => b :: a) acc = bs.reverse ++ acc := by
  induction bs generalizing acc with
  | nil => rfl
  | cons b bs ih => simp [List.foldl_cons, ih]

theorem into_packet_eq (bs : List Nat) (ce : Bool) :
    into_packet bs ce = (if ce then crc8_autosar bs else bs.headD 0) :: 0 :: bs.reverse := by
  unfold into_packet
  rw [foldl_cons_eq]
  simp

theorem packetWire_eq (n v : Nat) (ce : Bool) :
    packetWire n v ce
      = to_le_bytes n v
        ++ [0, if ce then crc8_autosar (to_le_bytes n v) else (to_le_bytes n v).headD 0] := by
  unfold packetWire
  rw [into_packet_eq]
  simp

/-- C4: decoding the counter bytes of a checksum-enabled encoded packet
together with its CRC byte recovers the counter: `from_slice_checked`
accepts and `from_le_bytes` returns the original value. -/
theorem claim_decode_inverts_encode (n v : Nat) (h : IsCounter n v) :
    (from_slice_checked n (((into_packet (to_le_bytes n v) true).drop 2).reverse)
        (some ((into_packet (to_le_bytes n v) true).headD 0))).map from_le_bytes
      = some v := by
  rw [into_packet_eq]
  simp only [if_true, List.headD_cons, List.drop_succ_cons, List.drop_zero,
    List.reverse_reverse]
  unfold from_slice_checked
  rw [to_le_bytes_length]
  simp only [ne_eq, not_true_eq_false, if_false, if_true]
  rw [Option.map_some', from_le_bytes_eq_self h.1]

/-- Witness for C4 at width 2 with the minimal counter 0x0101. -/
theorem claim_decode_inverts_encode_witness :
    IsCounter 2 257
    ∧ (from_slice_checked 2 (((into_packet (to_le_bytes 2 257) true).drop 2).reverse)
        (some ((into_packet (to_le_bytes 2 257) true).headD 0))).map from_le_bytes
      = some 257 :=
  ⟨by decide, claim_decode_inverts_encode 2 257 (by decide)⟩

/-- C5: from a fresh checksum-enabled TX machine of width 2, the first
four `take` calls emit exactly 0x01, 0x01, the 0x00 sentinel, and
CRC8-AUTOSAR over [0x01, 0x01]. -/
theorem claim_tx_first_packet_bytes :
    (takeSeq 2 4 (TxState.init true)).1 = [1, 1, 0, crc8_autosar [1, 1]] := by
  decide

/-- C1 counterexample to the claimed error propagation: when one side
returns `WouldBlock` and the other a real error, `loop_nb` returns `Ok`,
not the error. -/
theorem claim_loop_nb_error_counterexample :
    loop_nb_combine (NbResult.wouldBlock : NbResult Unit) (NbResult.err ()) = NbResult.ok
    ∧ loop_nb_combine (NbResult.err ()) (NbResult.wouldBlock : NbResult Unit) = NbResult.ok :=
  ⟨rfl, rfl⟩

/-- C1 amended: a non-WouldBlock error propagates out of `loop_nb` when
the other side is `Ok` or also a real error (the receive side's error
wins), but is replaced by `Ok` when the other side is `WouldBlock`. -/
theorem claim_loop_nb_error_amended {E : Type} (e e2 : E) :
    loop_nb_combine (NbResult.err e) NbResult.ok = NbResult.err e
    ∧ loop_nb_combine NbResult.ok (NbResult.err e) = NbResult.err e
    ∧ loop_nb_combine (NbResult.err e) (NbResult.err e2) = NbResult.err e
    ∧ loop_nb_combine (NbResult.err e) NbResult.wouldBlock = NbResult.ok
    ∧ loop_nb_combine NbResult.wouldBlock (NbResult.err e) = NbResult.ok :=
  ⟨rfl, rfl, rfl, rfl, rfl⟩

/-! ## Lemmas: RX buffer bound -/

theorem parse_current_packet_clears {n : Nat} {s s3 : RxState} {c : Nat}
    (h : parse_current_packet n s c = some s3) : s3.current_packet = [] := by
  unfold parse_current_packet at h
  rcases hfs : from_slice_checked n s.current_packet
      (if s.checksum_enabled then some c else none) with _ | bytes
  · rw [hfs] at h
    simp only [Option.some.injEq] at h
    rw [← h]
  · rw [hfs] at h
    dsimp only at h
    rcases hon : on_new_number n s (from_le_bytes bytes) with _ | s4
    · rw [hon] at h
      simp at h
    · rw [hon] at h
      simp only [Option.map_some', Option.some.injEq] at h
      rw [← h]

theorem on_byte_received_length {n : Nat} {s s2 : RxState} {b : Nat}
    (hlen : s.current_packet.length ≤ MAX_PACKET_SIZE)
    (h : on_byte_received n s b = some s2) :
    s2.current_packet.length ≤ MAX_PACKET_SIZE := by
  unfold on_byte_received at h
  by_cases hw : s.waiting_for_crc
  · rw [if_pos hw] at h
    unfold on_byte_received_crc at h
    rcases hp : parse_current_packet n s b with _ | s3
    · rw [hp] at h
      simp at h
    · rw [hp] at h
      simp only [Option.map_some', Option.some.injEq] at h
      have := parse_current_packet_clears hp
      rw [← h]
      simp [this]
  · rw [if_neg hw] at h
    simp only [Option.some.injEq] at h
    unfold on_byte_received_normal at h
    by_cases hb : b = 0
    · rw [if_pos hb] at h
      rw [← h]
      simpa using hlen
    · rw [if_neg hb] at h
      by_cases hfull : s.current_packet.length = MAX_PACKET_SIZE
      · rw [if_pos hfull] at h
        rw [← h]
        simp [MAX_PACKET_SIZE]
      · rw [if_neg hfull] at h
        rw [← h]
        simp only [List.length_append, List.length_cons, List.length_nil]
        unfold MAX_PACKET_SIZE at hfull hlen ⊢
        omega

theorem runRx_length {n : Nat} (bs : List Nat) {s s2 : RxState}
    (hlen : s.current_packet.length ≤ MAX_PACKET_SIZE)
    (h : runRx n s bs = some s2) :
    s2.current_packet.length ≤ MAX_PACKET_SIZE := by
  induction bs generalizing s with
  | nil =>
      simp only [runRx, Option.some.injEq] at h
      rwa [← h]
  | cons b bs ih =>
      simp only [runRx, Option.bind_eq_bind] at h
      rcases hstep : on_byte_received n s b with _ | s3
      · rw [hstep] at h
        simp at h
      · rw [hstep] at h
        simp only [Option.some_bind] at h
        exact ih (on_byte_received_length hlen hstep) h

/-- C9 counterexample: a width-2 machine fed three non-zero bytes keeps
all three in its buffer (the claimed clear-at-`N` does not happen; the
clearing threshold is the capacity `MAX_PACKET_SIZE = 10`, not `N`). -/
theorem claim_rx_buffer_clear_counterexample :
    runRx 2 (RxState.init true) [1, 1, 1] = some rxAfter3
    ∧ 2 < rxAfter3.current_packet.length := by
  exact ⟨by decide, by decide⟩

/-- C9 amended: in the Receiving phase a non-zero byte first clears the
buffer when it already holds `MAX_PACKET_SIZE` (= 10) bytes — not `N` —
and is then appended; consequently the buffer never exceeds ten bytes. -/
theorem claim_rx_buffer_clear_amended (n : Nat) :
    (∀ (s : RxState) (b : Nat), s.waiting_for_crc = false → b ≠ 0 →
      s.current_packet.length = MAX_PACKET_SIZE →
      on_byte_received n s b = some { s with current_packet := [b] })
    ∧ (∀ (ce : Bool) (bs : List Nat) (s2 : RxState),
        runRx n (RxState.init ce) bs = some s2 →
        s2.current_packet.length ≤ MAX_PACKET_SIZE) := by
  constructor
  · intro s b hw hb hfull
    unfold on_byte_received on_byte_received_normal
    simp [hw, hb, hfull]
  · intro ce bs s2 h
    exact runRx_length bs (by simp [RxState.init, MAX_PACKET_SIZE]) h

/-- Witness for C9 amended at width 2: a full ten-byte buffer is cleared
down to the single new byte, and a concrete run stays within capacity. -/
theorem claim_rx_buffer_clear_amended_witness :
    on_byte_received 2 rxFull10 7 = some { rxFull10 with current_packet := [7] }
    ∧ rxAfter3.current_packet.length ≤ MAX_PACKET_SIZE :=
  ⟨(claim_rx_buffer_clear_amended 2).1 rxFull10 7 rfl (by decide) (by decide),
   (claim_rx_buffer_clear_amended 2).2 true [1, 1, 1] rxAfter3 (by decide)⟩

/-! ## Lemmas: RX packet chains -/

theorem runRx_append {n : Nat} (xs ys : List Nat) (s : RxState) :
    runRx n s (xs ++ ys) = (runRx n s xs).bind fun s2 => runRx n s2 ys := by
  induction xs generalizing s with
  | nil => simp [runRx]
  | cons x xs ih =>
      simp only [List.cons_append, runRx, Option.bind_eq_bind]
      rcases on_byte_received n s x with _ | s3
      · simp
      · simp only [Option.some_bind]
        exact ih s3

theorem runRx_receive_bytes {n : Nat} (bs : List Nat) (s : RxState)
    (hw : s.waiting_for_crc = false) (hnz : ∀ b ∈ bs, b ≠ 0)
    (hlen : s.current_packet.length + bs.length ≤ MAX_PACKET_SIZE) :
    runRx n s bs = some { s with current_packet := s.current_packet ++ bs } := by
  induction bs generalizing s with
  | nil => simp [runRx]
  | cons b bs ih =>
      have hb : b ≠ 0 := hnz b (List.mem_cons_self b bs)
      have hnotfull : s.current_packet.length ≠ MAX_PACKET_SIZE := by
        simp only [List.length_cons] at hlen
        omega
      simp only [runRx, on_byte_received, hw, Bool.false_eq_true, if_false,
        Option.bind_eq_bind, Option.some_bind]
      unfold on_byte_received_normal
      rw [if_neg hb, if_neg hnotfull]
      have hstep := ih { s with current_packet := s.current_packet ++ [b] } hw
        (fun x hx => hnz x (List.mem_cons_of_mem b hx))
        (by
          simp only [List.length_append, List.length_cons, List.length_nil]
          simp only [List.length_cons] at hlen
          omega)
      rw [hstep]
      simp [hw]

theorem satAdd_eq {a b : Nat} (h : a + b ≤ USIZE_MAX) : satAdd a b = a + b :=
  min_eq_left h

theorem step_sentinel {n : Nat} (s : RxState) (hw : s.waiting_for_crc = false) :
    on_byte_received n s 0 = some { s with waiting_for_crc := true } := by
  unfold on_byte_received on_byte_received_normal
  simp [hw]

theorem step_crc {n : Nat} (s : RxState) (hw : s.waiting_for_crc = true) (b : Nat) :
    on_byte_received n s b
      = (parse_current_packet n s b).map fun s2 => { s2 with waiting_for_crc := false } := by
  unfold on_byte_received on_byte_received_crc
  simp [hw]

theorem from_slice_checked_ok (n c : Nat) :
    from_slice_checked n (to_le_bytes n c) (some (crc8_autosar (to_le_bytes n c)))
      = some (to_le_bytes n c) := by
  unfold from_slice_checked
  rw [to_le_bytes_length]
  simp

theorem packet_step {n c : Nat} (num : Option Nat) (ls lf : Nat)
    (hn10 : n ≤ MAX_PACKET_SIZE) (hc : IsCounter n c) :
    runRx n ⟨num, [], false, true, ls, lf⟩ (packetWire n c true)
      = (on_new_number n ⟨num, to_le_bytes n c, true, true, ls, lf⟩ c).map
          fun t => { t with current_packet := [], waiting_for_crc := false } := by
  have hnz : ∀ b ∈ to_le_bytes n c, b ≠ 0 := by
    intro b hb
    have h1 : ∀ x ∈ to_le_bytes n c, 1 ≤ x := normalizeBytes_isSome.mp hc.2
    have := h1 b hb
    omega
  rw [packetWire_eq]
  simp only [if_true]
  rw [runRx_append,
    runRx_receive_bytes (to_le_bytes n c) _ rfl hnz
      (by rw [to_le_bytes_length]; simpa using hn10)]
  simp only [Option.some_bind]
  simp only [List.nil_append]
  simp only [runRx, Option.bind_eq_bind]
  rw [step_sentinel _ rfl]
  simp only [Option.some_bind]
  rw [step_crc _ rfl]
  unfold parse_current_packet
  simp only [if_true]
  rw [from_slice_checked_ok]
  dsimp only
  rw [from_le_bytes_eq_self hc.1]
  rcases on_new_number n ⟨num, to_le_bytes n c, true, true, ls, lf⟩ c with _ | t
  · simp
  · simp

/-- Processing one in-sequence packet from a ready state with no recorded
number: records it and one success. -/
theorem packet_step_first {n c ls lf : Nat} (hn10 : n ≤ MAX_PACKET_SIZE)
    (hc : IsCounter n c) (hls : ls + 1 ≤ USIZE_MAX) :
    runRx n ⟨none, [], false, true, ls, lf⟩ (packetWire n c true)
      = some ⟨some c, [], false, true, ls + 1, lf⟩ := by
  rw [packet_step none ls lf hn10 hc]
  unfold on_new_number
  dsimp only
  rw [satAdd_eq hls]
  rfl

/-- Processing one packet at distance `d ≠ 0` from the recorded number:
`d - 1` failures and one success are added. -/
theorem packet_step_next {n c d : Nat} (p ls lf : Nat) (hn10 : n ≤ MAX_PACKET_SIZE)
    (hc : IsCounter n c) (hd : distance n p c = some d) (hd0 : d ≠ 0)
    (hls : ls + 1 ≤ USIZE_MAX) (hlf : lf + (d - 1) ≤ USIZE_MAX) :
    runRx n ⟨some p, [], false, true, ls, lf⟩ (packetWire n c true)
      = some ⟨some c, [], false, true, ls + 1, lf + (d - 1)⟩ := by
  rw [packet_step (some p) ls lf hn10 hc]
  unfold on_new_number
  dsimp only
  rw [hd]
  simp only [hd0, if_false]
  rw [satAdd_eq hls, satAdd_eq hlf]
  rfl

theorem chainBytes_succ (n c m : Nat) :
    chainBytes n c (m + 1) = packetWire n c true ++ chainBytes n (nextCounter n c) m := by
  simp [chainBytes, chainCounters]

/-- Consuming the packets of a successor chain of length `k` from a ready
state that has already recorded the chain's predecessor `p`: `k` more
successes, no failures. -/
theorem runRx_chain {n : Nat} (hn : 0 < n) (hn10 : n ≤ MAX_PACKET_SIZE) :
    ∀ (k p ls lf : Nat), IsCounter n p → ls + k ≤ USIZE_MAX → lf ≤ USIZE_MAX →
    ∃ q : Nat, runRx n ⟨some p, [], false, true, ls, lf⟩
        (chainBytes n (nextCounter n p) k)
      = some ⟨some q, [], false, true, ls + k, lf⟩ := by
  intro k
  induction k with
  | zero =>
      intro p ls lf hp hls hlf
      exact ⟨p, by simp [chainBytes, chainCounters, runRx]⟩
  | succ m ih =>
      intro p ls lf hp hls hlf
      obtain ⟨kp, hkp⟩ := Option.isSome_iff_exists.mp hp.2
      have hcnext : IsCounter n (nextCounter n p) := nextCounter_isCounter hp
      have hdist : distance n p (nextCounter n p) = some 1 := distance_next hn hkp
      have hstep := packet_step_next p ls lf hn10 hcnext hdist
        (by omega) (by omega) (by omega)
      simp only [Nat.sub_self, Nat.add_zero] at hstep
      obtain ⟨q, hq⟩ := ih (nextCounter n p) (ls + 1) lf hcnext (by omega) hlf
      refine ⟨q, ?_⟩
      rw [chainBytes_succ, runRx_append, hstep]
      simp only [Option.some_bind]
      rw [hq, show ls + 1 + m = ls + (m + 1) by omega]

/-- C3: feeding a fresh checksum-enabled RX machine the byte-for-byte
concatenation of the encoded packets of a successor chain of `k ≥ 1`
valid counters (no drops) leaves the loss statistics at
`successful = k`, `failed = 0`. -/
theorem claim_rx_chain_loss_free (n c k : Nat) (hn : 0 < n)
    (hn10 : n ≤ MAX_PACKET_SIZE) (hc : IsCounter n c) (hk : 0 < k)
    (hmax : k ≤ USIZE_MAX) :
    ∃ s2 : RxState, runRx n (RxState.init true) (chainBytes n c k) = some s2
      ∧ s2.loss_successful = k ∧ s2.loss_failed = 0 := by
  obtain ⟨m, rfl⟩ : ∃ m, k = m + 1 := ⟨k - 1, by omega⟩
  rw [chainBytes_succ, runRx_append]
  have h1 : RxState.init true = (⟨none, [], false, true, 0, 0⟩ : RxState) := rfl
  rw [h1, packet_step_first hn10 hc (by omega)]
  simp only [Option.some_bind, Nat.zero_add]
  obtain ⟨q, hq⟩ := runRx_chain hn hn10 m c 1 0 hc (by omega) (by omega)
  rw [hq]
  exact ⟨⟨some q, [], false, true, 1 + m, 0⟩, rfl, by dsimp only; omega, rfl⟩

/-- Witness for C3 at width 1 with the chain 0x01, 0x02. -/
theorem claim_rx_chain_loss_free_witness :
    (0 < 1 ∧ IsCounter 1 1 ∧ 0 < 2 ∧ 2 ≤ USIZE_MAX)
    ∧ ∃ s2 : RxState, runRx 1 (RxState.init true) (chainBytes 1 1 2) = some s2
        ∧ s2.loss_successful = 2 ∧ s2.loss_failed = 0 :=
  ⟨⟨by decide, by decide, by decide, by decide⟩,
   claim_rx_chain_loss_free 1 1 2 (by decide) (by decide) (by decide) (by decide)
     (by decide)⟩

/-! ## Lemmas: polling limiter -/

theorem fitLoop_step {fuel dur now e : Nat} (h : e < now) :
    fitLoop (fuel + 1) dur now e = fitLoop fuel dur now (e + dur) := by
  simp only [fitLoop]
  rw [if_pos h]

theorem fitLoop_done {fuel dur now e : Nat} (h : ¬ e < now) :
    fitLoop (fuel + 1) dur now e = some e := by
  simp only [fitLoop]
  rw [if_neg h]

theorem sendL_limiting {fuel now : Nat} {L : Limiter} (hst : L.st = .limiting)
    (hb : L.maxBytes ≠ 0) :
    sendL (fuel + 1) now L
      = match timerExpired now L with
        | none => none
        | some true =>
            match restartL fuel now L with
            | none => none
            | some L2 => sendL fuel now L2
        | some false => some (false, L) := by
  simp only [sendL]
  rw [hst]
  simp [hb]

theorem sendL_running_live {fuel now r : Nat} {L : Limiter} (hst : L.st = .running r)
    (hstarted : L.timerStarted = true) (hnexp : ¬ L.timerStart + L.timerDur ≤ now)
    (hr : 1 < r) :
    sendL (fuel + 1) now L = some (true, { L with st := .running (r - 1) }) := by
  simp only [sendL]
  rw [hst]
  unfold timerExpired
  rw [hstarted]
  simp [decide_eq_false hnexp, hr]

/-- C6: from a fresh limiter with B = 10 bytes per 1-second interval, at
instant 0 eleven sends yield nine trues, then false on the budget's last
byte, then false again; can_send is then false; and at any instant
strictly inside the following window the next send returns true. -/
theorem claim_limiter_budget_scenario :
    runSends 4 0 11 (newLimiter 10 1000000000 0)
      = some ([true, true, true, true, true, true, true, true, true, false, false],
          scenarioLimiter)
    ∧ canSend 0 scenarioLimiter = some false
    ∧ ∀ t1 : Nat, 1000000000 < t1 → t1 < 2000000000 →
        (sendL 4 t1 scenarioLimiter).map Prod.fst = some true := by
  refine ⟨by decide, by decide, ?_⟩
  intro t1 h1 h2
  have hexp : (0 : Nat) + 1000000000 ≤ t1 := by omega
  have e1 : timerExpired t1 scenarioLimiter = some true := by
    unfold timerExpired scenarioLimiter
    simp [decide_eq_true hexp]
  have efit : restartL 3 t1 scenarioLimiter
      = some ⟨10, 1000000000, .running 10, true, t1, 2000000000 - t1, 2000000000⟩ := by
    have hf : fitLoop 3 1000000000 t1 1000000000 = some 2000000000 := by
      rw [show (3 : Nat) = 2 + 1 from rfl, fitLoop_step h1]
      norm_num
      rw [show (2 : Nat) = 1 + 1 from rfl, fitLoop_done (by omega)]
    unfold restartL scenarioLimiter
    rw [hf]
  rw [show (4 : Nat) = 3 + 1 from rfl, sendL_limiting rfl (by decide), e1]
  dsimp only
  rw [efit]
  dsimp only
  rw [show (3 : Nat) = 2 + 1 from rfl,
    sendL_running_live rfl rfl (by dsimp only; omega) (by omega)]
  rfl

/-- Witness for C6's universally quantified tail: half a second into the
second window, `send` returns true again. -/
theorem claim_limiter_budget_scenario_witness :
    (sendL 4 1500000000 scenarioLimiter).map Prod.fst = some true :=
  claim_limiter_budget_scenario.2.2 1500000000 (by decide) (by decide)

/-- C7 counterexample: a B = 0 limiter brought into Limiting with a
started, long-expired window timer (reachable through `restart` and one
`send`) still reports `can_send = false`, `send` still returns
`Ok(false)`, and no transition to Running happens — contradicting the
claimed timer-expiry behaviour. -/
theorem claim_limiting_zero_budget_counterexample :
    restartL 4 5 (newLimiter 0 1000000000 0) = some limitingAfterRestart
    ∧ sendL 4 6 limitingAfterRestart = some (false, limitingStuck)
    ∧ timerExpired 2000000000 limitingStuck = some true
    ∧ canSend 2000000000 limitingStuck = some false
    ∧ sendL 4 2000000000 limitingStuck = some (false, limitingStuck) := by
  refine ⟨by decide, by decide, by decide, by decide, by decide⟩

/-- C7 amended: when `max_rate.bytes = 0`, the Limiting state ignores the
timer entirely: `can_send` is always false and `send` always returns
`Ok(false)` with the state unchanged, expired timer or not; the
expiry/restart path of Limiting applies only when `bytes > 0`. -/
theorem claim_limiting_zero_budget_amended (now fuel : Nat) (L : Limiter)
    (hst : L.st = .limiting) (hb : L.maxBytes = 0) :
    canSend now L = some false ∧ sendL (fuel + 1) now L = some (false, L) := by
  constructor
  · unfold canSend
    rw [hst]
    simp [hb]
  · simp only [sendL]
    rw [hst]
    simp [hb]

/-- Witness for C7 amended at the concrete stuck state. -/
theorem claim_limiting_zero_budget_amended_witness :
    canSend 2000000000 limitingStuck = some false
    ∧ sendL 4 2000000000 limitingStuck = some (false, limitingStuck) :=
  claim_limiting_zero_budget_amended 2000000000 3 limitingStuck rfl rfl

/-! ## Claim theorems: byte rate -/

/-- C8 counterexample: with bytes = usize::MAX over a half-second
interval, every precision's multiplication overflows and the seconds path
hits a zero denominator, so `bytes_per_second` is `None` although the
interval is non-zero. -/
theorem claim_bps_none_counterexample :
    bytes_per_second { bytes := USIZE_MAX, interval := { secs := 0, nanos := 500000000 } }
      = none
    ∧ ({ secs := 0, nanos := 500000000 } : Dur).isZero = false := by
  refine ⟨by decide, by decide⟩

/-- C8 amended: `bytes_per_second` is `None` exactly when the interval is
zero or all four precisions fail; for a non-zero interval it is the first
successful precision in nanosecond, microsecond, millisecond, second
order, and for intervals of at least one second it always succeeds. -/
theorem claim_bps_amended (r : ByteRate) :
    (bytes_per_second r = none ↔
      (r.interval.isZero = true
        ∨ (bytes_per_second_ns_accuracy r = none
            ∧ bytes_per_second_us_accuracy r = none
            ∧ bytes_per_second_ms_accuracy r = none
            ∧ bytes_per_second_sec_accuracy r = none)))
    ∧ (r.interval.isZero = false →
        bytes_per_second r
          = (bytes_per_second_ns_accuracy r).orElse fun _ =>
              (bytes_per_second_us_accuracy r).orElse fun _ =>
                (bytes_per_second_ms_accuracy r).orElse fun _ =>
                  bytes_per_second_sec_accuracy r)
    ∧ (r.interval.isZero = false → 1 ≤ r.interval.secs → r.interval.secs ≤ USIZE_MAX →
        (bytes_per_second r).isSome = true) := by
  have hsec : r.interval.isZero = false → 1 ≤ r.interval.secs → r.interval.secs ≤ USIZE_MAX →
      ∃ x, bytes_per_second_sec_accuracy r = some x := by
    intro hz h1 hle
    unfold bytes_per_second_sec_accuracy tryFromUsize
    rw [hz]
    unfold Dur.asSecs
    simp only [Bool.false_eq_true, if_false, hle, if_true, Option.some_bind,
      Option.bind_eq_bind]
    rw [if_neg (by omega)]
    exact ⟨_, rfl⟩
  refine ⟨?_, ?_, ?_⟩
  · unfold bytes_per_second
    by_cases hz : r.interval.isZero
    · simp [hz]
    · simp only [hz, Bool.false_eq_true, if_false, false_or]
      rcases bytes_per_second_ns_accuracy r with _ | x
      · rcases bytes_per_second_us_accuracy r with _ | x
        · rcases bytes_per_second_ms_accuracy r with _ | x
          · simp
          · simp
        · simp
      · simp
  · intro hz
    unfold bytes_per_second
    simp only [hz, Bool.false_eq_true, if_false]
    rcases bytes_per_second_ns_accuracy r with _ | x
    · rcases bytes_per_second_us_accuracy r with _ | x
      · rcases bytes_per_second_ms_accuracy r with _ | x
        · rfl
        · rfl
      · rfl
    · rfl
  · intro hz h1 hle
    obtain ⟨x, hx⟩ := hsec hz h1 hle
    unfold bytes_per_second
    simp only [hz, Bool.false_eq_true, if_false]
    rcases bytes_per_second_ns_accuracy r with _ | y
    · rcases bytes_per_second_us_accuracy r with _ | y
      · rcases bytes_per_second_ms_accuracy r with _ | y
        · rw [hx]
          rfl
        · rfl
      · rfl
    · rfl

/-- Witness for C8 amended: 5 bytes over 2 seconds yields a result. -/
theorem claim_bps_amended_witness :
    (bytes_per_second { bytes := 5, interval := { secs := 2, nanos := 0 } }).isSome = true :=
  (claim_bps_amended { bytes := 5, interval := { secs := 2, nanos := 0 } }).2.2
    (by decide) (by decide) (by decide)

/-- C10: the failing input for the loss computation — the same valid
width-1 packet received twice in a row.  The second decode finds
`distance = 0` and `distance - 1` underflows the `usize` subtraction
(a panic in debug builds), modelled as `none`. -/
theorem claim_rx_duplicate_packet_underflow :
    runRx 1 (RxState.init true) ([1, 0, crc8_autosar [1]] ++ [1, 0, crc8_autosar [1]]) = none
    ∧ distance 1 1 1 = some 0 := by
  exact ⟨by decide, by decide⟩

end SerialPerf
